import Mathlib

/-!
Shallow embedding of the persona-driven PDF section-ranking pipeline
(`pdf_parser.py`, `summarizer.py`, `relevance_model.py`, `output_generator.py`,
`main.py`).  Python strings are modelled as `List Char` (`Text`); Python
floats appearing in scoring arithmetic are modelled as rationals `ℚ`; the
external collaborators (PDF layout extraction, the sentence-embedding model,
the TF-IDF vectorizer and the sentence tokenizer) are parameters of the
embedded functions, exactly at the boundaries the code calls them.
-/

/-- Python strings, modelled as lists of characters. -/
abbrev Text := List Char

/-- ASCII model of Python's `\s` character class. -/
def isSpaceChar (c : Char) : Bool :=
  c == ' ' || c == '\t' || c == '\n' || c == '\r' || c == '\u000B' || c == '\u000C'

/-- ASCII decimal digit, Python `\d` / `str.isdigit` on ASCII input. -/
def isDigitChar (c : Char) : Bool := '0' ≤ c && c ≤ '9'

/-- ASCII uppercase letter. -/
def isUpperChar (c : Char) : Bool := 'A' ≤ c && c ≤ 'Z'

/-- ASCII lowercase letter. -/
def isLowerChar (c : Char) : Bool := 'a' ≤ c && c ≤ 'z'

/-- ASCII letter. -/
def isAlphaChar (c : Char) : Bool := isUpperChar c || isLowerChar c

/-- ASCII model of Python's `\w` word-character class. -/
def isWordChar (c : Char) : Bool := isAlphaChar c || isDigitChar c || c == '_'

/-- Python `str.lower`, ASCII model. -/
def lowerText (t : Text) : Text := t.map Char.toLower

/-- Drop leading whitespace. -/
def dropWS (t : Text) : Text := t.dropWhile isSpaceChar

/-- Python `str.strip`: remove leading and trailing whitespace. -/
def stripText (t : Text) : Text := dropWS ((dropWS t.reverse).reverse)

/-- Maximal runs of characters satisfying `p`; `cur` is the current run,
reversed.  `splitRuns isWordChar` is Python `re.findall` of `\w+`;
`splitRuns (fun c => !isSpaceChar c)` is Python `str.split()`. -/
def splitRunsGo (p : Char → Bool) (cur : Text) : Text → List Text
  | [] => if cur == [] then [] else [cur.reverse]
  | c :: r =>
    if p c then splitRunsGo p (c :: cur) r
    else if cur == [] then splitRunsGo p [] r
    else cur.reverse :: splitRunsGo p [] r

/-- Maximal runs of characters satisfying `p`. -/
def splitRuns (p : Char → Bool) (t : Text) : List Text := splitRunsGo p [] t

/-- Python `str.split()` (split on whitespace runs, no empty pieces). -/
def wordsOf (t : Text) : List Text := splitRuns (fun c => !isSpaceChar c) t

/-- Python `re.findall` of `\w+` over a text. -/
def wordTokens (t : Text) : List Text := splitRuns isWordChar t

/-- The `len(t.split())`. -/
def countWords (t : Text) : Nat := (wordsOf t).length

/-- Python `" ".join`. -/
def joinSpace : List Text → Text
  | [] => []
  | [t] => t
  | t :: u :: r => t ++ ' ' :: joinSpace (u :: r)

/-- Tests whether `pre` is a prefix of the second argument (Python `str.startswith`). -/
def startsWithT : Text → Text → Bool
  | [], _ => true
  | _ :: _, [] => false
  | a :: as, b :: bs => a == b && startsWithT as bs

/-- Python substring containment (`needle in hay`). -/
def containsSub (needle : Text) : Text → Bool
  | [] => startsWithT needle []
  | c :: rest => startsWithT needle (c :: rest) || containsSub needle rest

/-- The `|set a ∩ set b|` for deduplicated token lists. -/
def interCard (w1 w2 : List Text) : Nat := (w1.filter (fun w => w2.contains w)).length

/-- The `|set a ∪ set b|` for deduplicated token lists. -/
def unionCard (w1 w2 : List Text) : Nat := ((w1 ++ w2).dedup).length

/-! ## relevance_model.py — keyword bonus and composite score (lines 110-151) -/

/-- The `set(re.findall(r'\w+', text.lower()))` from `score_sections`. -/
def wordSet (t : Text) : List Text := (wordTokens (lowerText t)).dedup

/-- The `keyword_overlap = len(query_words & section_words) / max(len(query_words), 1)`
(relevance_model.py line 123), with `query` and the enhanced section text as
inputs. -/
def keyword_overlap (query enhanced : Text) : ℚ :=
  ((interCard (wordSet query) (wordSet enhanced) : Nat) : ℚ) /
    ((max (wordSet query).length 1 : Nat) : ℚ)

/-- The `keyword_bonus = keyword_overlap * 0.2` (relevance_model.py line 124). -/
def keyword_bonus (query enhanced : Text) : ℚ := keyword_overlap query enhanced * (2/10)

/-- The keyword summand of `total_score`: `0.1 * keyword_bonus`
(relevance_model.py line 145). -/
def keywordComponent (query enhanced : Text) : ℚ := (1/10) * keyword_bonus query enhanced

/-- The five heading-quality keywords of relevance_model.py line 134. -/
def headingTerms : List Text :=
  [ "method".data, "result".data, "analysis".data, "approach".data, "technique".data ]

/-- The `heading_bonus` (relevance_model.py lines 131-135). -/
def heading_bonus (heading : Text) : ℚ :=
  (if 2 ≤ countWords heading then (5/100 : ℚ) else 0) +
  (if headingTerms.any (fun w => containsSub w (lowerText heading)) then (1/10 : ℚ) else 0)

/-- The `length_bonus = min(content_length / 100, 0.1)` (relevance_model.py line 139). -/
def length_bonus (content : Text) : ℚ := min (((countWords content : Nat) : ℚ) / 100) (1/10)

/-- The `total_score` (relevance_model.py lines 142-149).  The semantic score, the
TF-IDF score and the position bonus come from external collaborators and are
parameters. -/
def total_score (query enhanced heading content : Text) (semantic tfidf posBonus : ℚ) : ℚ :=
  (4/10) * semantic + (3/10) * tfidf + keywordComponent query enhanced +
    (1/10) * posBonus + (5/100) * heading_bonus heading + (5/100) * length_bonus content

/-- What the spec's wording claims the keyword component is:
0.10 × the raw overlap ratio.  (Spec comparison definition, not from the code.) -/
def keywordComponentSpec (query enhanced : Text) : ℚ := (1/10) * keyword_overlap query enhanced

/-! ## relevance_model.py — duplicate filter (lines 158-185) -/

/-- A section as seen by the scorer/selector: the Python dict with its
`document`, `section_title`, `page`, `summary` and `context` entries. -/
structure OSection where
  document : Text
  section_title : Text
  page : Nat
  summary : Text
  context : Text
deriving DecidableEq

/-- The `heading = section.get( "section_title", ...).lower().strip()`
(relevance_model.py line 167). -/
def headKey (s : OSection) : Text := stripText (lowerText s.section_title)

/-- The token-Jaccard duplicate test of relevance_model.py lines 173-177:
true iff both headings have at least one whitespace token and
`|∩| / |∪| > thr`. -/
def jaccardAbove (thr : ℚ) (a b : Text) : Bool :=
  let w1 := (wordsOf a).dedup
  let w2 := (wordsOf b).dedup
  if w1 = [] ∨ w2 = [] then false
  else decide (thr < ((interCard w1 w2 : Nat) : ℚ) / ((unionCard w1 w2 : Nat) : ℚ))

/-- The greedy loop of `filter_duplicates`: `seen` is the list of already
retained (lowered, stripped) headings. -/
def filterDupGo (thr : ℚ) (seen : List Text) : List (ℚ × OSection) → List (ℚ × OSection)
  | [] => []
  | (sc, s) :: rest =>
    if seen.any (fun t => jaccardAbove thr (headKey s) t) then filterDupGo thr seen rest
    else (sc, s) :: filterDupGo thr (seen ++ [headKey s]) rest

/-- The `filter_duplicates` (relevance_model.py lines 158-185). -/
def filter_duplicates (thr : ℚ) (l : List (ℚ × OSection)) : List (ℚ × OSection) :=
  filterDupGo thr [] l

/-! ## output_generator.py — diversity selection and final output (lines 5-126) -/

/-- The `max_sections = 5` (output_generator.py line 31). -/
def maxSectionsK : Nat := 5

/-- The `max_per_doc = max(1, max_sections // max(len(documents), 1))`
(output_generator.py line 32). -/
def maxPerDoc (documents : List Text) : Nat :=
  max 1 (maxSectionsK / max documents.length 1)

/-- The `(doc, section_title.lower(), page)` key of output_generator.py line 40,
where `section_title` has already been stripped (line 36). -/
def sectionKey (s : OSection) : Text × Text × Nat :=
  (s.document, lowerText (stripText s.section_title), s.page)

/-- Negation of the skip test `not section_title or len(section_title.strip()) < 3`
(output_generator.py line 51), applied to the already-stripped title. -/
def validTitle (st : Text) : Bool :=
  !(st == []) && decide (3 ≤ (stripText st).length)

/-- Pass 1 of the Diversity Selector (output_generator.py lines 34-60):
score-order scan with the seen-key set, the per-document counter map and the
`break` once `max_sections` picks are accumulated.  Python's `doc_counts`
dict is modelled as the function `counts`. -/
def pass1go (mpd : Nat) (seen : List (Text × Text × Nat)) (counts : Text → Nat)
    (acc : List (ℚ × OSection)) :
    List (ℚ × OSection) → List (ℚ × OSection) × List (Text × Text × Nat)
  | [] => (acc, seen)
  | (sc, s) :: rest =>
    if sectionKey s ∈ seen then pass1go mpd seen counts acc rest
    else if mpd ≤ counts s.document then pass1go mpd seen counts acc rest
    else if !(validTitle (stripText s.section_title)) then pass1go mpd seen counts acc rest
    else
      if maxSectionsK ≤ (acc ++ [(sc, s)]).length then (acc ++ [(sc, s)], sectionKey s :: seen)
      else
        pass1go mpd (sectionKey s :: seen)
          (fun d => if d = s.document then counts s.document + 1 else counts d)
          (acc ++ [(sc, s)]) rest

/-- Pass 2 of the Diversity Selector, the quota relaxation
(output_generator.py lines 63-82): rescans the full list, still honoring the
seen-key set and minimum title length but not the per-document quota. -/
def pass2go (seen : List (Text × Text × Nat)) (slots : Nat) (acc : List (ℚ × OSection)) :
    List (ℚ × OSection) → List (ℚ × OSection)
  | [] => acc
  | (sc, s) :: rest =>
    if slots = 0 then acc
    else if sectionKey s ∈ seen then pass2go seen slots acc rest
    else if validTitle (stripText s.section_title) then
      pass2go (sectionKey s :: seen) (slots - 1) (acc ++ [(sc, s)]) rest
    else pass2go seen slots acc rest

/-- The full two-pass selection of `generate_combined_output`
(output_generator.py lines 26-82). -/
def selectFinal (documents : List Text) (ranked : List (ℚ × OSection)) :
    List (ℚ × OSection) :=
  let p1 := pass1go (maxPerDoc documents) [] (fun _ => 0) [] ranked
  if p1.1.length < maxSectionsK ∧ p1.1.length < ranked.length then
    pass2go p1.2 (maxSectionsK - p1.1.length) p1.1 ranked
  else p1.1

/-- One record of the `extracted_sections` array. -/
structure ExtractedEntry where
  document : Text
  section_title : Text
  importance_rank : Nat
  page_number : Nat
deriving DecidableEq

/-- One record of the `subsection_analysis` array. -/
structure SubsectionEntry where
  document : Text
  refined_text : Text
  page_number : Nat
deriving DecidableEq

/-- The JSON output document (metadata fields inlined). -/
structure CombinedOutput where
  input_documents : List Text
  persona : Text
  job_to_be_done : Text
  processing_timestamp : Text
  extracted_sections : List ExtractedEntry
  subsection_analysis : List SubsectionEntry
deriving DecidableEq

/-- Python `or` on strings: first operand if non-empty, else the second. -/
def pyOr (a b : Text) : Text := if a = [] then b else a

/-- The fallback phrase prefix of output_generator.py line 104. -/
def coveringText : Text := "Section covering: ".data

/-- The truncation ellipsis of output_generator.py line 109. -/
def ellipsisText : Text := "...".data

/-- The `refined_text` construction (output_generator.py lines 96-109). -/
def refinedText (s : OSection) : Text :=
  let rt := stripText (pyOr s.summary (pyOr s.context s.section_title))
  let rt2 := if rt = [] ∨ countWords rt < 5 then coveringText ++ s.section_title else rt
  if 100 < (wordsOf rt2).length then joinSpace ((wordsOf rt2).take 100) ++ ellipsisText
  else rt2

/-- The `generate_combined_output` (output_generator.py lines 5-123) as a pure
function producing the output document; the UTC timestamp comes from an
external clock and is a parameter, and the file write is the external
boundary. -/
def generate_combined_output (ts : Text) (documents : List Text) (persona job : Text)
    (ranked : List (ℚ × OSection)) : CombinedOutput :=
  if ranked = [] then
    ⟨documents, persona, job, ts, [], []⟩
  else
    { input_documents := documents
      persona := persona
      job_to_be_done := job
      processing_timestamp := ts
      extracted_sections :=
        (selectFinal documents ranked).mapIdx
          (fun i p => ⟨p.2.document, p.2.section_title, i + 1, p.2.page⟩)
      subsection_analysis :=
        (selectFinal documents ranked).map
          (fun p => ⟨p.2.document, refinedText p.2, p.2.page⟩) }

/-! ## summarizer.py -/

/-- Squeeze every whitespace run to a single space
(the `re.sub(r'\s+', ' ', text)` of summarizer.py line 9). -/
def cleanTextGo : Text → Text
  | [] => []
  | [c] => [if isSpaceChar c then ' ' else c]
  | a :: b :: r =>
    if isSpaceChar a && isSpaceChar b then cleanTextGo (b :: r)
    else (if isSpaceChar a then ' ' else a) :: cleanTextGo (b :: r)

/-- The `clean_text` (summarizer.py lines 8-10). -/
def cleanText (t : Text) : Text := stripText (cleanTextGo t)

/-- The `np.argsort(importance)` (summarizer.py line 24): the indices of the
importance list sorted by ascending value.  NumPy's default sort leaves the
order of equal values unspecified; a merge sort on the index list is used
here. -/
def argsortAsc (imp : List ℚ) : List Nat :=
  (List.range imp.length).mergeSort (fun i j => decide (imp.getD i 0 ≤ imp.getD j 0))

/-- Python `sorted` on index lists (summarizer.py line 27). -/
def sortNatAsc (l : List Nat) : List Nat := l.mergeSort (fun a b => decide (a ≤ b))

/-- The `summarize_text` (summarizer.py lines 12-28).  The sentence tokenizer
(`nltk.sent_tokenize`) and the per-sentence summed TF-IDF weights
(`TfidfVectorizer` + row sums, lines 19-23) are external collaborators and
come in as the parameters `sentTok` and `impF`. -/
def summarize_text (sentTok : Text → List Text) (impF : List Text → List ℚ)
    (text : Text) (maxS : Nat) : Text :=
  let sentences := sentTok text
  if sentences.length ≤ maxS then cleanText text
  else
    let top := sortNatAsc (((argsortAsc (impF sentences)).reverse).take maxS)
    cleanText (joinSpace (top.map (fun i => sentences.getD i [])))

/-! ## pdf_parser.py — spans, font statistics, heading classifier, assembler -/

/-- A text span kept by the collection loop (pdf_parser.py lines 37-51):
stripped text, font size and font flags (bit 4 = bold). -/
structure Span where
  text : Text
  size : ℚ
  flags : Nat
deriving DecidableEq

/-- A raw span as delivered by the PDF layout collaborator (text not yet
stripped).  The unused `font` and `bbox` entries are omitted. -/
structure RawSpan where
  text : Text
  size : ℚ
  flags : Nat
deriving DecidableEq

/-- A raw line is its list of raw spans. -/
abbrev RawLine := List RawSpan

/-- One entry of `spans_data` (pdf_parser.py lines 53-59): the stripped
joined line text, the kept spans and the 1-based page number.  The unused
`bbox` entry is omitted. -/
structure LineData where
  text : Text
  spans : List Span
  page : Nat
deriving DecidableEq

/-- The `(span['size'], span['flags'] & 16 > 0)` (pdf_parser.py line 50). -/
abbrev FontKey := ℚ × Bool

/-- The font key of a span. -/
def fontKeyOf (s : Span) : FontKey := (s.size, decide (0 < s.flags &&& 16))

/-- The inner span loop of pdf_parser.py lines 37-47: build `line_text`
(stripped span texts joined with trailing spaces) and `line_spans`. -/
def buildLineGo (lt : Text) (ls : List Span) : List RawSpan → Text × List Span
  | [] => (lt, ls)
  | r :: rest =>
    if stripText r.text = [] then buildLineGo lt ls rest
    else buildLineGo (lt ++ stripText r.text ++ [' '])
      (ls ++ [⟨stripText r.text, r.size, r.flags⟩]) rest

/-- One raw line to its `spans_data` entry, if `line_text.strip()` is
non-empty (pdf_parser.py lines 53-59). -/
def lineDataOf (pageNum : Nat) (raw : RawLine) : Option LineData :=
  let bl := buildLineGo [] [] raw
  if stripText bl.1 = [] then none else some ⟨stripText bl.1, bl.2, pageNum⟩

/-- The `spans_data` over all pages, with 1-based page numbers
(pdf_parser.py lines 25-59). -/
def spansData (pages : List (List RawLine)) : List LineData :=
  (pages.mapIdx (fun i pg => pg.filterMap (lineDataOf (i + 1)))).flatten

/-- All kept spans of the document in order; `font_stats` is accumulated
over exactly these (pdf_parser.py lines 49-51). -/
def keptSpans (pages : List (List RawLine)) : List Span :=
  ((spansData pages).map (fun l => l.spans)).flatten

/-- Add `w` to the weight of key `k` in an insertion-ordered association
list — Python's `font_stats[font_key] += len(text.split())` on a
`defaultdict(int)`. -/
def addWeight (stats : List (FontKey × Nat)) (k : FontKey) (w : Nat) : List (FontKey × Nat) :=
  match stats with
  | [] => [(k, w)]
  | (k', w') :: rest =>
    if k' = k then (k', w' + w) :: rest else (k', w') :: addWeight rest k w

/-- The `font_stats` (pdf_parser.py lines 23, 49-51). -/
def fontStats (spans : List Span) : List (FontKey × Nat) :=
  spans.foldl (fun st s => addWeight st (fontKeyOf s) (countWords s.text)) []

/-- Python `max(font_stats.keys(), key=lambda x: font_stats[x])` over the
insertion-ordered pairs: the first key attaining the maximal weight. -/
def pickMax : List (FontKey × Nat) → Option (FontKey × Nat)
  | [] => none
  | x :: rest =>
    match pickMax rest with
    | none => some x
    | some m => if x.2 < m.2 then some m else some x

/-- The `body_font` (pdf_parser.py line 66); `none` when there are no kept spans. -/
def bodyFont (spans : List Span) : Option FontKey :=
  (pickMax (fontStats spans)).map Prod.fst

/-! ### pdf_parser.py — is_bullet_point and the regex predicates of is_heading -/

/-- The bullet glyphs of `bullet_starts` (pdf_parser.py line 8). -/
def bulletChars : List Char := ['•', '●', '-', '*', '▪', '‣', '◦', '–', '➤']

/-- The `re.match(r"^\(?\d+[\.\)]", t)`: optional `(`, one or more digits, then
`.` or `)` (pdf_parser.py line 11 and the skip pattern on line 96). -/
def matchNumDot (t : Text) : Bool :=
  let t2 := match t with | '(' :: r => r | _ => t
  !(t2.takeWhile isDigitChar == []) &&
    (match t2.dropWhile isDigitChar with
     | c :: _ => c == '.' || c == ')'
     | [] => false)

/-- The `re.match(r"^[a-zA-Z]\)", t)` (pdf_parser.py line 13 and line 97). -/
def matchAlphaParen (t : Text) : Bool :=
  match t with
  | a :: b :: _ => isAlphaChar a && b == ')'
  | _ => false

/-- The `is_bullet_point` (pdf_parser.py lines 7-15). -/
def is_bullet_point (t : Text) : Bool :=
  (match stripText t with
   | c :: _ => bulletChars.contains c
   | [] => false)
  || matchNumDot (stripText t) || matchAlphaParen (stripText t)

/-- Skip pattern `^\d+$`: just digits. -/
def skipJustNumber (t : Text) : Bool := !(t == []) && t.all isDigitChar

/-- Skip pattern `^[ivxlcdm]+$`: roman numeral letters only (the text is
already lower-cased at the call site). -/
def skipRoman (t : Text) : Bool :=
  !(t == []) && t.all (fun c => (['i', 'v', 'x', 'l', 'c', 'd', 'm'] : List Char).contains c)

/-- Skip pattern `^[a-z][\.\)]`. -/
def skipLowerDot (t : Text) : Bool :=
  match t with
  | a :: b :: _ => isLowerChar a && (b == '.' || b == ')')
  | _ => false

/-- Skip pattern `^\([^)]+\)$`: a fully parenthesized text. -/
def skipParen (t : Text) : Bool :=
  match t with
  | '(' :: body =>
    !(body.takeWhile (fun c => !(c == ')')) == []) &&
      body.dropWhile (fun c => !(c == ')')) == [')']
  | _ => false

/-- Skip pattern `^[•\-–●◦▪‣➤\*]`: leading bullet glyph. -/
def skipBulletStart (t : Text) : Bool :=
  match t with
  | c :: _ => (['•', '-', '–', '●', '◦', '▪', '‣', '➤', '*'] : List Char).contains c
  | [] => false

/-- Skip pattern `^\s*$`: whitespace only (also matches the empty text). -/
def skipWs (t : Text) : Bool := t.all isSpaceChar

/-- Matches `pre` as a prefix followed by a character of class `cls` — the shape of
the caption and reference skip patterns. -/
def prefixThenClass (pre : Text) (cls : Char → Bool) (t : Text) : Bool :=
  startsWithT pre t &&
    (match t.drop pre.length with
     | c :: _ => cls c
     | [] => false)

/-- Skip pattern `^(figure|table|fig|tab)[\s\d]` (pdf_parser.py line 99). -/
def skipCaption (t : Text) : Bool :=
  prefixThenClass ( "figure").data (fun c => isSpaceChar c || isDigitChar c) t ||
  prefixThenClass ( "table").data (fun c => isSpaceChar c || isDigitChar c) t ||
  prefixThenClass ( "fig").data (fun c => isSpaceChar c || isDigitChar c) t ||
  prefixThenClass ( "tab").data (fun c => isSpaceChar c || isDigitChar c) t

/-- Skip pattern `^(see|refer|source|note)[\s:]` (pdf_parser.py line 100). -/
def skipRef (t : Text) : Bool :=
  prefixThenClass ( "see").data (fun c => isSpaceChar c || c == ':') t ||
  prefixThenClass ( "refer").data (fun c => isSpaceChar c || c == ':') t ||
  prefixThenClass ( "source").data (fun c => isSpaceChar c || c == ':') t ||
  prefixThenClass ( "note").data (fun c => isSpaceChar c || c == ':') t

/-- The whole `skip_patterns` cascade (pdf_parser.py lines 90-105), applied
to the lower-cased text. -/
def skipPatternsHit (lowered : Text) : Bool :=
  skipJustNumber lowered || skipRoman lowered || skipLowerDot lowered ||
  skipParen lowered || skipBulletStart lowered || matchNumDot lowered ||
  matchAlphaParen lowered || skipWs lowered || skipCaption lowered || skipRef lowered

/-- The footer/header noise tokens (pdf_parser.py line 108). -/
def footerKeywords : List Text :=
  [ "page".data, "chapter".data, "section".data, "www.".data,
    "http".data, "@".data, "copyright".data, "©".data ]

/-- The `text.endswith(('.', '!', '?', ';'))` (pdf_parser.py line 86). -/
def endsWithPunct (t : Text) : Bool :=
  match t.reverse with
  | c :: _ => c == '.' || c == '!' || c == '?' || c == ';'
  | [] => false

/-- Positive pattern `^\d+[\.\s]`: numbered heading. -/
def posNumbered (t : Text) : Bool :=
  !(t.takeWhile isDigitChar == []) &&
    (match t.dropWhile isDigitChar with
     | c :: _ => c == '.' || isSpaceChar c
     | [] => false)

/-- Positive pattern `^\d+\.\d+`: decimal numbering. -/
def posDecimal (t : Text) : Bool :=
  !(t.takeWhile isDigitChar == []) &&
    (match t.dropWhile isDigitChar with
     | '.' :: c :: _ => isDigitChar c
     | _ => false)

/-- One `[A-Z][a-z]+` word. -/
def isTitleWordT (w : Text) : Bool :=
  match w with
  | c :: rest => isUpperChar c && !(rest == []) && rest.all isLowerChar
  | [] => false

/-- Positive pattern `^[A-Z][a-z]+(\s+[A-Z][a-z]+)*$`: title case —
equivalently, no leading or trailing whitespace and every whitespace-run
separated chunk is an `[A-Z][a-z]+` word. -/
def posTitleCase (t : Text) : Bool :=
  (match t with | c :: _ => !isSpaceChar c | [] => false) &&
  (match t.reverse with | c :: _ => !isSpaceChar c | [] => false) &&
  !(wordsOf t == []) && (wordsOf t).all isTitleWordT

/-- Positive pattern `^[A-Z\s]+$`: all caps (with whitespace). -/
def posAllCaps (t : Text) : Bool :=
  !(t == []) && t.all (fun c => isUpperChar c || isSpaceChar c)

/-- The `is_heading` (pdf_parser.py lines 70-143), closed over the document's
body font `(bodySize, bodyBold)`. -/
def is_heading (bodySize : ℚ) (bodyBold : Bool) (sd : LineData) : Bool :=
  let text := stripText sd.text
  if is_bullet_point text then false
  else if text = [] ∨ text.length < 3 then false
  else if 20 < countWords text then false
  else if endsWithPunct text then false
  else if skipPatternsHit (lowerText text) then false
  else if footerKeywords.any (fun k => containsSub k (lowerText text)) then false
  else
    match sd.spans with
    | [] => false
    | main :: _ =>
      let isBold := decide (0 < main.flags &&& 16)
      let isLarger := decide (bodySize + 1/2 ≤ main.size)
      let isEmphasized := isBold && !bodyBold
      if !(isLarger || isEmphasized) then false
      else if !(isUpperChar (text.headD ' ') || isDigitChar (text.headD ' ')) then false
      else if posNumbered text || posTitleCase text || posAllCaps text || posDecimal text then
        true
      else isLarger && (isEmphasized || countWords text ≤ 8)

/-! ### pdf_parser.py — section assembly (lines 145-193) -/

/-- A section dict built by `extract_headings_with_context`
(pdf_parser.py lines 160-166).  The `"text"` entry always duplicates
`section_title` and is omitted. -/
structure Section where
  section_title : Text
  context : Text
  summary : Text
  page : Nat
deriving DecidableEq

/-- Finalizing the in-progress section (pdf_parser.py lines 156-166 and
177-187): emit it only when the heading is truthy, the context list is
non-empty and the stripped joined context is non-empty; summarize only
bodies longer than 40 words. -/
def finalizeSec (summF : Text → Text) (cur : Option (Text × Nat)) (ctx : List Text) :
    List Section :=
  match cur with
  | none => []
  | some (hd, pg) =>
    if hd = [] ∨ ctx = [] then []
    else
      if stripText (joinSpace ctx) = [] then []
      else
        [⟨hd, stripText (joinSpace ctx),
          if 40 < countWords (stripText (joinSpace ctx)) then summF (stripText (joinSpace ctx))
          else stripText (joinSpace ctx), pg⟩]

/-- Python truthiness of `current_heading` (`None` and the empty string are
falsy). -/
def curTruthy (cur : Option (Text × Nat)) : Bool :=
  match cur with
  | some (hd, _) => !(hd == [])
  | none => false

/-- The streaming loop of pdf_parser.py lines 146-187, over the
heading-classification outcome `hd` of each line. -/
def assembleGo (summF : Text → Text) (hd : LineData → Bool) (cur : Option (Text × Nat))
    (ctx : List Text) : List LineData → List Section
  | [] => finalizeSec summF cur ctx
  | l :: ls =>
    if hd l then finalizeSec summF cur ctx ++ assembleGo summF hd (some (l.text, l.page)) [] ls
    else if curTruthy cur then assembleGo summF hd cur (ctx ++ [l.text]) ls
    else assembleGo summF hd cur ctx ls

/-- The Section Assembler: the loop started with no open heading and an
empty context. -/
def assembleSections (summF : Text → Text) (hd : LineData → Bool)
    (lines : List LineData) : List Section :=
  assembleGo summF hd none [] lines

/-- The `extract_headings_with_context` (pdf_parser.py lines 17-193) from the
layout collaborator's pages of raw spans; the summarizer function is a
parameter (pdf_parser.py calls `summarize_text`, whose TF-IDF model and
sentence tokenizer are external).  Ends with the `>= 5` context-word filter
of line 190. -/
def extract_headings_with_context (summF : Text → Text)
    (pages : List (List RawLine)) : List Section :=
  match bodyFont (keptSpans pages) with
  | none => []
  | some bf =>
    (assembleSections summF (is_heading bf.1 bf.2) (spansData pages)).filter
      (fun s => 5 ≤ countWords s.context)

/-! ## Theorems -/

/-- C7: when a run produces zero valid sections, the pipeline still emits a
well-formed output in which `extracted_sections` and `subsection_analysis`
are both empty arrays and the metadata (input document list, persona, job,
timestamp) is still populated. -/
theorem empty_run_emits_wellformed_empty_output
    (ts : Text) (documents : List Text) (persona job : Text) :
    generate_combined_output ts documents persona job [] =
      { input_documents := documents, persona := persona, job_to_be_done := job,
        processing_timestamp := ts, extracted_sections := [],
        subsection_analysis := [] } := rfl

/-- C9: every section returned by `extract_headings_with_context` has a
context of at least 5 whitespace-separated words. -/
theorem extracted_section_context_min_words
    (summF : Text → Text) (pages : List (List RawLine)) (s : Section)
    (hs : s ∈ extract_headings_with_context summF pages) :
    5 ≤ countWords s.context := by
  unfold extract_headings_with_context at hs
  cases h : bodyFont (keptSpans pages) with
  | none => rw [h] at hs; simp at hs
  | some bf =>
    rw [h] at hs
    have := (List.mem_filter.mp hs).2
    simpa using this

/-- A two-line document (a larger-font title-case heading line, then a
five-word body line) on which the segmentation emits one section. -/
def pagesW : List (List RawLine) :=
  [[[⟨ "Results".data, 14, 0⟩], [⟨ "one two three four five".data, 10, 0⟩]]]

/-- The section the segmentation of `pagesW` emits. -/
def secW : Section :=
  ⟨ "Results".data, "one two three four five".data, "one two three four five".data, 1⟩

theorem extracted_section_context_min_words_witness :
    secW ∈ extract_headings_with_context id pagesW ∧ 5 ≤ countWords secW.context :=
  ⟨by with_unfolding_all decide,
   extracted_section_context_min_words id pagesW secW (by with_unfolding_all decide)⟩

/-- C2 counterexample: on the one-word query `match` and an enhanced section
text `match`, the keyword-overlap ratio is 1, yet the keyword component of
the composite score is 1/50 = 0.02, not the 0.10 the claim states. -/
theorem keyword_component_coefficient_cex :
    keywordComponent (['m', 'a', 't', 'c', 'h']) (['m', 'a', 't', 'c', 'h']) ≠
      keywordComponentSpec (['m', 'a', 't', 'c', 'h']) (['m', 'a', 't', 'c', 'h']) := by
  with_unfolding_all decide

/-- C2 amended: the keyword-overlap component of the composite score equals
0.02 × `|queryWords ∩ sectionWords| / max(|queryWords|, 1)` (the code first
scales the ratio by 0.2 to form `keyword_bonus`, then weights it by 0.1). -/
theorem keyword_component_amended (query enhanced : Text) :
    keywordComponent query enhanced = (2/100) * keyword_overlap query enhanced := by
  unfold keywordComponent keyword_bonus
  ring

/-- The greedy duplicate-filter loop is idempotent for any starting seen
list. -/
theorem filterDupGo_idem (thr : ℚ) :
    ∀ (l : List (ℚ × OSection)) (seen : List Text),
      filterDupGo thr seen (filterDupGo thr seen l) = filterDupGo thr seen l := by
  intro l
  induction l with
  | nil => intro seen; rfl
  | cons x rest ih =>
    intro seen
    obtain ⟨sc, s⟩ := x
    by_cases h : seen.any (fun t => jaccardAbove thr (headKey s) t) = true
    · rw [show filterDupGo thr seen ((sc, s) :: rest) = filterDupGo thr seen rest by
        simp [filterDupGo, h]]
      exact ih seen
    · have hf : seen.any (fun t => jaccardAbove thr (headKey s) t) = false :=
        Bool.eq_false_iff.mpr h
      rw [show filterDupGo thr seen ((sc, s) :: rest) =
            (sc, s) :: filterDupGo thr (seen ++ [headKey s]) rest by
        simp [filterDupGo, hf]]
      rw [show filterDupGo thr seen ((sc, s) :: filterDupGo thr (seen ++ [headKey s]) rest) =
            (sc, s) :: filterDupGo thr (seen ++ [headKey s])
              (filterDupGo thr (seen ++ [headKey s]) rest) by
        simp [filterDupGo, hf]]
      rw [ih (seen ++ [headKey s])]

/-- C5: the Duplicate Filter is idempotent — applying it to its own output
with the same threshold returns that output unchanged (for every input list,
in particular every score-descending one). -/
theorem filter_duplicates_idempotent (thr : ℚ) (l : List (ℚ × OSection)) :
    filter_duplicates thr (filter_duplicates thr l) = filter_duplicates thr l :=
  filterDupGo_idem thr l []

/-- Number of picks attributed to document `d`. -/
def countDoc (d : Text) (l : List (ℚ × OSection)) : Nat :=
  l.countP (fun p => p.2.document == d)

/-- Pass-1 invariant: if the counter map agrees with the accumulated picks
and every document is within `mpd` picks, the final pass-1 list keeps every
document within `mpd` picks. -/
theorem pass1go_doc_bound (mpd : Nat) :
    ∀ (rest : List (ℚ × OSection)) (seen : List (Text × Text × Nat))
      (counts : Text → Nat) (acc : List (ℚ × OSection)),
      (∀ d, counts d = countDoc d acc) →
      (∀ d, countDoc d acc ≤ mpd) →
      ∀ d, countDoc d (pass1go mpd seen counts acc rest).1 ≤ mpd := by
  intro rest
  induction rest with
  | nil => intro seen counts acc _ hbound d; exact hbound d
  | cons x rs ih =>
    intro seen counts acc hsync hbound d
    obtain ⟨sc, s⟩ := x
    by_cases h1 : sectionKey s ∈ seen
    · rw [show pass1go mpd seen counts acc ((sc, s) :: rs) = pass1go mpd seen counts acc rs by
        simp [pass1go, h1]]
      exact ih seen counts acc hsync hbound d
    · by_cases h2 : mpd ≤ counts s.document
      · rw [show pass1go mpd seen counts acc ((sc, s) :: rs) = pass1go mpd seen counts acc rs by
          simp [pass1go, h1, h2]]
        exact ih seen counts acc hsync hbound d
      · by_cases h3 : validTitle (stripText s.section_title) = false
        · rw [show pass1go mpd seen counts acc ((sc, s) :: rs)
              = pass1go mpd seen counts acc rs by
            simp [pass1go, h1, h2, h3]]
          exact ih seen counts acc hsync hbound d
        · have h3t : validTitle (stripText s.section_title) = true := by
            cases hv : validTitle (stripText s.section_title)
            · exact absurd hv h3
            · rfl
          have hlt : counts s.document < mpd := Nat.lt_of_not_le h2
          have hcount : ∀ e, countDoc e (acc ++ [(sc, s)]) =
              countDoc e acc + (if s.document == e then 1 else 0) := by
            intro e
            simp [countDoc, List.countP_append, List.countP_cons]
          have hbound2 : ∀ e, countDoc e (acc ++ [(sc, s)]) ≤ mpd := by
            intro e
            rw [hcount e]
            by_cases he : s.document = e
            · subst he
              have : countDoc s.document acc < mpd := by rw [← hsync s.document]; exact hlt
              simpa using this
            · have hne : (s.document == e) = false := by
                simp [he]
              simp [hne, hbound e]
          have hb3 : ¬((!validTitle (stripText s.section_title)) = true) := by
            simp [h3t]
          by_cases h4 : maxSectionsK ≤ (acc ++ [(sc, s)]).length
          · rw [show pass1go mpd seen counts acc ((sc, s) :: rs)
                = (acc ++ [(sc, s)], sectionKey s :: seen) by
              simp only [pass1go]
              rw [if_neg h1, if_neg h2, if_neg hb3, if_pos h4]]
            exact hbound2 d
          · rw [show pass1go mpd seen counts acc ((sc, s) :: rs)
                = pass1go mpd (sectionKey s :: seen)
                    (fun e => if e = s.document then counts s.document + 1 else counts e)
                    (acc ++ [(sc, s)]) rs by
              simp only [pass1go]
              rw [if_neg h1, if_neg h2, if_neg hb3, if_neg h4]]
            refine ih _ _ _ ?_ hbound2 d
            intro e
            rw [hcount e]
            by_cases he : e = s.document
            · subst he
              simp [hsync s.document]
            · have hne : (s.document == e) = false := by
                simpa using Ne.symm he
              simp [he, hne, hsync e]

/-- C1: in the non-relaxed pass of the Diversity Selector, no document
contributes more than `ceil(maxSections / documentCount)` picks (with
`maxSections = 5`); the code's quota `max 1 (5 // documentCount)` is at most
that ceiling. -/
theorem pass1_per_document_quota (documents : List Text) (ranked : List (ℚ × OSection))
    (d : Text) (hdocs : 1 ≤ documents.length) :
    countDoc d (pass1go (maxPerDoc documents) [] (fun _ => 0) [] ranked).1 ≤
      (maxSectionsK + documents.length - 1) / documents.length := by
  have hstep : countDoc d (pass1go (maxPerDoc documents) [] (fun _ => 0) [] ranked).1 ≤
      maxPerDoc documents := by
    refine pass1go_doc_bound _ ranked [] _ [] (fun e => rfl) (fun e => ?_) d
    simp [countDoc]
  refine hstep.trans ?_
  have hmax : max documents.length 1 = documents.length := Nat.max_eq_left hdocs
  have hceil : maxSectionsK + documents.length - 1 = 4 + documents.length := by
    simp only [maxSectionsK]
    omega
  rw [maxPerDoc, hmax, hceil]
  have h1 : 1 ≤ (4 + documents.length) / documents.length := by
    rw [Nat.le_div_iff_mul_le (Nat.lt_of_lt_of_le Nat.zero_lt_one hdocs)]
    omega
  have h2 : maxSectionsK / documents.length ≤ (4 + documents.length) / documents.length := by
    refine Nat.div_le_div_right ?_
    simp only [maxSectionsK]
    omega
  exact max_le h1 h2

/-- Two documents and four ranked one-document-heavy sections for the C1
witness. -/
def docsW : List Text := [['a'], ['b']]

/-- Ranked sections: three from document `a`, one from document `b`. -/
def rankedW : List (ℚ × OSection) :=
  [ (9, ⟨['a'], ['t', '1', 'x'], 1, [], []⟩),
    (8, ⟨['a'], ['t', '2', 'x'], 2, [], []⟩),
    (7, ⟨['a'], ['t', '3', 'x'], 3, [], []⟩),
    (6, ⟨['b'], ['t', '4', 'x'], 1, [], []⟩) ]

theorem pass1_per_document_quota_witness :
    1 ≤ docsW.length ∧
      countDoc (['a']) (pass1go (maxPerDoc docsW) [] (fun _ => 0) [] rankedW).1 ≤
        (maxSectionsK + docsW.length - 1) / docsW.length :=
  ⟨by decide, pass1_per_document_quota docsW rankedW (['a']) (by decide)⟩

/-- C8: the Heading Classifier rejects every line whose (stripped) text ends
in terminal sentence punctuation — `.`, `!`, `?` or `;` — regardless of font
size, boldness or any other attribute. -/
theorem heading_rejects_terminal_punctuation
    (bodySize : ℚ) (bodyBold : Bool) (sd : LineData)
    (hp : endsWithPunct (stripText sd.text) = true) :
    is_heading bodySize bodyBold sd = false := by
  simp [is_heading, hp]

/-- A bold large-font line that ends in a period, for the C8 witness. -/
def lineP : LineData :=
  ⟨ "Results overview.".data, [⟨ "Results overview.".data, 99, 16⟩], 1⟩

theorem heading_rejects_terminal_punctuation_witness :
    endsWithPunct (stripText lineP.text) = true ∧ is_heading 10 false lineP = false :=
  ⟨by decide, heading_rejects_terminal_punctuation 10 false lineP (by decide)⟩

/-- Aggregate word count attributed to font key `k` — the order-independent
reading of `font_stats` (pdf_parser.py lines 49-51). -/
def fontWeight (k : FontKey) : List Span → Nat
  | [] => 0
  | s :: rest => (if fontKeyOf s = k then countWords s.text else 0) + fontWeight k rest

/-- Value of key `k` in an insertion-ordered association list (0 if absent). -/
def lookupW (k : FontKey) : List (FontKey × Nat) → Nat
  | [] => 0
  | (k', w) :: rest => if k' = k then w else lookupW k rest

/-- Two spans with equal word counts in different fonts — order one. -/
def spansO1 : List Span := [⟨ "a b c".data, 10, 0⟩, ⟨ "d e f".data, 12, 0⟩]

/-- The same two spans in the other order. -/
def spansO2 : List Span := [⟨ "d e f".data, 12, 0⟩, ⟨ "a b c".data, 10, 0⟩]

/-- C4 counterexample: the two span orders are permutations of one another,
yet `body_font` differs — Python's `max` keeps the first key of the
insertion-ordered `font_stats` dict on ties, so a tie makes the body font
depend on line processing order. -/
theorem body_font_order_dependence_cex :
    spansO1.Perm spansO2 ∧ bodyFont spansO1 ≠ bodyFont spansO2 := by
  constructor
  · with_unfolding_all decide
  · with_unfolding_all decide

theorem lookupW_addWeight (k q : FontKey) (w : Nat) :
    ∀ stats, lookupW q (addWeight stats k w) =
      lookupW q stats + (if k = q then w else 0) := by
  intro stats
  induction stats with
  | nil => simp [addWeight, lookupW]
  | cons p rest ih =>
    obtain ⟨k0, w0⟩ := p
    by_cases h0 : k0 = k
    · subst h0
      simp only [addWeight, if_pos rfl, lookupW]
      by_cases hq : k0 = q
      · subst hq
        simp [lookupW]
      · simp [lookupW, hq]
    · simp only [addWeight, if_neg h0, lookupW]
      by_cases hq : k0 = q
      · subst hq
        simp [lookupW, Ne.symm h0]
      · simp [lookupW, hq, ih]

theorem lookupW_fontStats_fold (k : FontKey) :
    ∀ (spans : List Span) (stats0 : List (FontKey × Nat)),
      lookupW k (spans.foldl (fun st s => addWeight st (fontKeyOf s) (countWords s.text)) stats0) =
        lookupW k stats0 + fontWeight k spans := by
  intro spans
  induction spans with
  | nil => intro stats0; simp [fontWeight]
  | cons s rest ih =>
    intro stats0
    simp only [List.foldl_cons, fontWeight]
    rw [ih, lookupW_addWeight]
    by_cases h : fontKeyOf s = k
    · simp only [h, if_pos rfl]
      omega
    · simp [h]

/-- The value stored with `k` in `font_stats` is the aggregate word count of
the spans in that font. -/
theorem lookupW_fontStats (k : FontKey) (spans : List Span) :
    lookupW k (fontStats spans) = fontWeight k spans := by
  have := lookupW_fontStats_fold k spans []
  simpa [fontStats, lookupW] using this

theorem mem_keys_addWeight (q k : FontKey) (w : Nat) :
    ∀ stats, q ∈ (addWeight stats k w).map Prod.fst ↔
      q = k ∨ q ∈ stats.map Prod.fst := by
  intro stats
  induction stats with
  | nil => simp [addWeight]
  | cons p rest ih =>
    obtain ⟨k0, w0⟩ := p
    by_cases h0 : k0 = k
    · subst h0
      simp [addWeight]
    · simp only [addWeight, if_neg h0, List.map_cons, List.mem_cons, ih]
      tauto

theorem mem_keys_fontStats_fold (q : FontKey) :
    ∀ (spans : List Span) (stats0 : List (FontKey × Nat)),
      q ∈ ((spans.foldl (fun st s => addWeight st (fontKeyOf s) (countWords s.text))
            stats0).map Prod.fst) ↔
        q ∈ stats0.map Prod.fst ∨ ∃ s ∈ spans, fontKeyOf s = q := by
  intro spans
  induction spans with
  | nil => intro stats0; simp
  | cons s rest ih =>
    intro stats0
    simp only [List.foldl_cons]
    rw [ih, mem_keys_addWeight]
    constructor
    · rintro ((h | h) | h)
      · exact Or.inr ⟨s, by simp, h.symm⟩
      · exact Or.inl h
      · obtain ⟨u, hu, hq⟩ := h
        exact Or.inr ⟨u, by simp [hu], hq⟩
    · rintro (h | ⟨u, hu, hq⟩)
      · exact Or.inl (Or.inr h)
      · rcases List.mem_cons.mp hu with h | h
        · subst h
          exact Or.inl (Or.inl hq.symm)
        · exact Or.inr ⟨u, h, hq⟩

/-- A key is present in `font_stats` exactly when some span has that font. -/
theorem mem_keys_fontStats (q : FontKey) (spans : List Span) :
    q ∈ (fontStats spans).map Prod.fst ↔ ∃ s ∈ spans, fontKeyOf s = q := by
  have := mem_keys_fontStats_fold q spans []
  simpa [fontStats] using this

/-- Function `pickMax` returns `none` only on the empty list. -/
theorem pickMax_none : ∀ stats, pickMax stats = none → stats = [] := by
  intro stats h
  cases stats with
  | nil => rfl
  | cons x rest =>
    exfalso
    simp only [pickMax] at h
    split at h
    · exact Option.noConfusion h
    · split at h <;> exact Option.noConfusion h

/-- Function `pickMax` returns a member of the list whose weight is maximal. -/
theorem pickMax_spec :
    ∀ stats p, pickMax stats = some p → p ∈ stats ∧ ∀ q ∈ stats, q.2 ≤ p.2 := by
  intro stats
  induction stats with
  | nil => intro p h; simp [pickMax] at h
  | cons x rest ih =>
    intro p h
    simp only [pickMax] at h
    split at h
    · rename_i hr
      have hnil := pickMax_none rest hr
      subst hnil
      simp only [Option.some.injEq] at h
      subst h
      refine ⟨List.mem_cons_self _ _, ?_⟩
      intro q hq
      simp only [List.mem_singleton] at hq
      subst hq
      exact le_refl _
    · rename_i m hr
      obtain ⟨hm, hall⟩ := ih m hr
      split at h
      · rename_i hw
        simp only [Option.some.injEq] at h
        subst h
        refine ⟨List.mem_cons_of_mem _ hm, ?_⟩
        intro q hq
        rcases List.mem_cons.mp hq with hh | hh
        · subst hh; exact le_of_lt hw
        · exact hall q hh
      · rename_i hw
        simp only [Option.some.injEq] at h
        subst h
        refine ⟨List.mem_cons_self _ _, ?_⟩
        intro q hq
        rcases List.mem_cons.mp hq with hh | hh
        · subst hh; exact le_refl _
        · exact le_trans (hall q hh) (Nat.le_of_not_lt hw)

/-- Function `pickMax` succeeds on a non-empty list. -/
theorem pickMax_isSome : ∀ stats, stats ≠ ([] : List (FontKey × Nat)) →
    ∃ p, pickMax stats = some p := by
  intro stats h
  cases hm : pickMax stats with
  | none => exact absurd (pickMax_none stats hm) h
  | some p => exact ⟨p, rfl⟩

theorem keys_nodup_addWeight (k : FontKey) (w : Nat) :
    ∀ stats, (stats.map Prod.fst).Nodup → ((addWeight stats k w).map Prod.fst).Nodup := by
  intro stats
  induction stats with
  | nil => intro _; simp [addWeight]
  | cons p rest ih =>
    intro hnd
    obtain ⟨k0, w0⟩ := p
    simp only [List.map_cons, List.nodup_cons] at hnd
    by_cases h0 : k0 = k
    · subst h0
      rw [show addWeight ((k0, w0) :: rest) k0 w = (k0, w0 + w) :: rest by
        simp [addWeight]]
      simp only [List.map_cons, List.nodup_cons]
      exact hnd
    · simp only [addWeight, if_neg h0, List.map_cons, List.nodup_cons]
      refine ⟨?_, ih hnd.2⟩
      intro hmem
      rcases (mem_keys_addWeight k0 k w rest).mp hmem with h | h
      · exact h0 h
      · exact hnd.1 h

theorem keys_nodup_fontStats_fold :
    ∀ (spans : List Span) (stats0 : List (FontKey × Nat)),
      (stats0.map Prod.fst).Nodup →
      (((spans.foldl (fun st s => addWeight st (fontKeyOf s) (countWords s.text))
          stats0)).map Prod.fst).Nodup := by
  intro spans
  induction spans with
  | nil => intro stats0 h; simpa using h
  | cons s rest ih =>
    intro stats0 h
    simp only [List.foldl_cons]
    exact ih _ (keys_nodup_addWeight _ _ stats0 h)

/-- The keys of `font_stats` are distinct. -/
theorem keys_nodup_fontStats (spans : List Span) :
    ((fontStats spans).map Prod.fst).Nodup :=
  keys_nodup_fontStats_fold spans [] (by simp)

/-- In an association list with distinct keys, lookup returns the stored
value. -/
theorem lookupW_of_mem (k : FontKey) (w : Nat) :
    ∀ stats, ((stats.map Prod.fst).Nodup) → (k, w) ∈ stats → lookupW k stats = w := by
  intro stats
  induction stats with
  | nil => intro _ h; simp at h
  | cons p rest ih =>
    intro hnd hmem
    obtain ⟨k0, w0⟩ := p
    simp only [List.map_cons, List.nodup_cons] at hnd
    rcases List.mem_cons.mp hmem with h | h
    · injection h with h1 h2
      subst h1
      subst h2
      simp [lookupW]
    · have hne : k0 ≠ k := by
        intro he
        subst he
        exact hnd.1 (List.mem_map.mpr ⟨(k0, w), h, rfl⟩)
      simp only [lookupW, if_neg hne]
      exact ih hnd.2 h

/-- The aggregate word count per font is order-independent. -/
theorem fontWeight_perm (k : FontKey) {l1 l2 : List Span} (h : l1.Perm l2) :
    fontWeight k l1 = fontWeight k l2 := by
  induction h with
  | nil => rfl
  | cons x _ ih => simp only [fontWeight]; omega
  | swap x y l => simp only [fontWeight]; omega
  | trans _ _ ih1 ih2 => exact ih1.trans ih2

/-- When one font strictly dominates all other occurring fonts in aggregate
word count, `body_font` picks it. -/
theorem bodyFont_strict_max (spans : List Span) (k : FontKey)
    (hk : k ∈ (fontStats spans).map Prod.fst)
    (hmax : ∀ k' ∈ (fontStats spans).map Prod.fst, k' ≠ k →
      fontWeight k' spans < fontWeight k spans) :
    bodyFont spans = some k := by
  have hne : fontStats spans ≠ [] := by
    intro hnil
    rw [hnil] at hk
    simp at hk
  obtain ⟨p, hp⟩ := pickMax_isSome (fontStats spans) hne
  obtain ⟨hmem, hall⟩ := pickMax_spec _ p hp
  have hnd := keys_nodup_fontStats spans
  have hpv : lookupW p.1 (fontStats spans) = p.2 := by
    refine lookupW_of_mem p.1 p.2 _ hnd ?_
    simpa using hmem
  have hpw : fontWeight p.1 spans = p.2 := by
    rw [← lookupW_fontStats, hpv]
  obtain ⟨q, hq, hqk⟩ := List.mem_map.mp hk
  have hwkv : lookupW k (fontStats spans) = q.2 := by
    refine lookupW_of_mem k q.2 _ hnd ?_
    rw [← hqk]
    simpa using hq
  have hwk : fontWeight k spans = q.2 := by
    rw [← lookupW_fontStats, hwkv]
  have hle : q.2 ≤ p.2 := hall q hq
  by_cases hpk : p.1 = k
  · unfold bodyFont
    rw [hp]
    simp [hpk]
  · exfalso
    have hp1 : p.1 ∈ (fontStats spans).map Prod.fst := List.mem_map.mpr ⟨p, hmem, rfl⟩
    have hlt := hmax p.1 hp1 hpk
    omega

/-- C4 amended: the body font is invariant under reordering of the
document's spans whenever one `(size, isBold)` pair strictly dominates all
other occurring pairs in aggregate word count; with a tie the insertion
order decides (see the counterexample). -/
theorem body_font_order_independent_unique_max
    (spans1 spans2 : List Span) (k : FontKey)
    (hperm : spans1.Perm spans2)
    (hk : k ∈ (fontStats spans1).map Prod.fst)
    (hmax : ∀ k' ∈ (fontStats spans1).map Prod.fst, k' ≠ k →
      fontWeight k' spans1 < fontWeight k spans1) :
    bodyFont spans1 = some k ∧ bodyFont spans2 = some k := by
  refine ⟨bodyFont_strict_max spans1 k hk hmax, bodyFont_strict_max spans2 k ?_ ?_⟩
  · rw [mem_keys_fontStats] at hk ⊢
    obtain ⟨s, hs, hfk⟩ := hk
    exact ⟨s, hperm.mem_iff.mp hs, hfk⟩
  · intro k' hk' hne
    rw [mem_keys_fontStats] at hk'
    obtain ⟨s, hs, hfk⟩ := hk'
    have hk1 : k' ∈ (fontStats spans1).map Prod.fst := by
      rw [mem_keys_fontStats]
      exact ⟨s, hperm.mem_iff.mpr hs, hfk⟩
    have hlt := hmax k' hk1 hne
    rwa [fontWeight_perm k' hperm, fontWeight_perm k hperm] at hlt

/-- Spans with a strictly dominant font, in one order. -/
def spansU1 : List Span := [⟨ "a b c".data, 10, 0⟩, ⟨ "d e".data, 12, 0⟩]

/-- The same spans in the other order. -/
def spansU2 : List Span := [⟨ "d e".data, 12, 0⟩, ⟨ "a b c".data, 10, 0⟩]

theorem body_font_order_independent_unique_max_witness :
    spansU1.Perm spansU2 ∧
      ((10 : ℚ), false) ∈ (fontStats spansU1).map Prod.fst ∧
      (∀ k' ∈ (fontStats spansU1).map Prod.fst, k' ≠ ((10 : ℚ), false) →
        fontWeight k' spansU1 < fontWeight ((10 : ℚ), false) spansU1) ∧
      bodyFont spansU1 = some ((10 : ℚ), false) ∧
      bodyFont spansU2 = some ((10 : ℚ), false) := by
  refine ⟨?_, ?_, ?_, ?_⟩
  · with_unfolding_all decide
  · with_unfolding_all decide
  · with_unfolding_all decide
  · exact body_font_order_independent_unique_max spansU1 spansU2 ((10 : ℚ), false)
      (by with_unfolding_all decide) (by with_unfolding_all decide)
      (by with_unfolding_all decide)

/-- The relaxation pass only ever appends to the accumulated pass-1 picks. -/
theorem pass2go_extends :
    ∀ (rest : List (ℚ × OSection)) (seen : List (Text × Text × Nat)) (slots : Nat)
      (acc : List (ℚ × OSection)),
      ∃ extra, pass2go seen slots acc rest = acc ++ extra := by
  intro rest
  induction rest with
  | nil => intro seen slots acc; exact ⟨[], (List.append_nil _).symm⟩
  | cons x rs ih =>
    intro seen slots acc
    obtain ⟨sc, s⟩ := x
    by_cases h0 : slots = 0
    · refine ⟨[], ?_⟩
      rw [show pass2go seen slots acc ((sc, s) :: rs) = acc by
        simp only [pass2go]
        rw [if_pos h0]]
      exact (List.append_nil _).symm
    · by_cases h1 : sectionKey s ∈ seen
      · obtain ⟨e, he⟩ := ih seen slots acc
        refine ⟨e, ?_⟩
        rw [show pass2go seen slots acc ((sc, s) :: rs) = pass2go seen slots acc rs by
          simp only [pass2go]
          rw [if_neg h0, if_pos h1]]
        exact he
      · by_cases h2 : validTitle (stripText s.section_title) = true
        · obtain ⟨e, he⟩ := ih (sectionKey s :: seen) (slots - 1) (acc ++ [(sc, s)])
          refine ⟨(sc, s) :: e, ?_⟩
          rw [show pass2go seen slots acc ((sc, s) :: rs)
              = pass2go (sectionKey s :: seen) (slots - 1) (acc ++ [(sc, s)]) rs by
            simp only [pass2go]
            rw [if_neg h0, if_neg h1, if_pos h2]]
          rw [he, List.append_assoc]
          rfl
        · obtain ⟨e, he⟩ := ih seen slots acc
          refine ⟨e, ?_⟩
          rw [show pass2go seen slots acc ((sc, s) :: rs) = pass2go seen slots acc rs by
            simp only [pass2go]
            rw [if_neg h0, if_neg h1, if_neg h2]]
          exact he

theorem selectFinal_extends (documents : List Text) (ranked : List (ℚ × OSection)) :
    ∃ extra, selectFinal documents ranked =
      (pass1go (maxPerDoc documents) [] (fun _ => 0) [] ranked).1 ++ extra := by
  unfold selectFinal
  by_cases hc :
      (pass1go (maxPerDoc documents) [] (fun _ => 0) [] ranked).1.length < maxSectionsK ∧
      (pass1go (maxPerDoc documents) [] (fun _ => 0) [] ranked).1.length < ranked.length
  · rw [if_pos hc]
    exact pass2go_extends ranked _ _ _
  · rw [if_neg hc]
    exact ⟨[], (List.append_nil _).symm⟩

/-- C10: every section admitted by the relaxation pass is placed after all
pass-1 picks, and on the concrete score-descending input `rankedW` the final
list is not score-descending: the section skipped in pass 1 only because of
the per-document quota (score 7 from document `a`) receives importance rank
4, after the lower-scoring rank-3 pick (score 6 from document `b`). -/
theorem relaxation_ranks_after_pass1 :
    (∀ (documents : List Text) (ranked : List (ℚ × OSection)),
       ∃ extra, selectFinal documents ranked =
         (pass1go (maxPerDoc documents) [] (fun _ => 0) [] ranked).1 ++ extra) ∧
    rankedW.Pairwise (fun p q => q.1 ≤ p.1) ∧
    (selectFinal docsW rankedW).map Prod.fst = [9, 8, 6, 7] ∧
    ¬ (selectFinal docsW rankedW).Pairwise (fun p q => q.1 ≤ p.1) ∧
    (generate_combined_output [] docsW [] [] rankedW).extracted_sections =
      [ ⟨['a'], ['t', '1', 'x'], 1, 1⟩, ⟨['a'], ['t', '2', 'x'], 2, 2⟩,
        ⟨['b'], ['t', '4', 'x'], 3, 1⟩, ⟨['a'], ['t', '3', 'x'], 4, 3⟩ ] := by
  refine ⟨selectFinal_extends, ?_, ?_, ?_, ?_⟩
  · with_unfolding_all decide
  · with_unfolding_all decide
  · with_unfolding_all decide
  · with_unfolding_all decide

/-! ### C3 — Section Assembler count -/

theorem dropWS_eq_nil_iff (t : Text) :
    dropWS t = [] ↔ ∀ c ∈ t, isSpaceChar c = true := by
  simp [dropWS, List.dropWhile_eq_nil_iff]

/-- A text strips to empty exactly when it is all whitespace. -/
theorem stripText_eq_nil_iff (t : Text) :
    stripText t = [] ↔ ∀ c ∈ t, isSpaceChar c = true := by
  constructor
  · intro h c hc
    rw [stripText, dropWS_eq_nil_iff] at h
    have hc2 : c ∈ t.reverse := List.mem_reverse.mpr hc
    rw [← List.takeWhile_append_dropWhile (p := isSpaceChar) (l := t.reverse)] at hc2
    rcases List.mem_append.mp hc2 with h1 | h1
    · exact List.mem_takeWhile_imp h1
    · exact h c (List.mem_reverse.mpr h1)
  · intro h
    rw [stripText, dropWS_eq_nil_iff]
    intro c hc
    have hc2 : c ∈ dropWS t.reverse := List.mem_reverse.mp hc
    have hc3 : c ∈ t.reverse := (List.dropWhile_sublist _).mem hc2
    exact h c (List.mem_reverse.mp hc3)

/-- Joining a non-empty list of stripped non-empty texts never strips to
empty. -/
theorem strip_join_ne_nil (t : Text) (ctx : List Text)
    (ht : stripText t = t) (hne : t ≠ []) :
    stripText (joinSpace (t :: ctx)) ≠ [] := by
  intro habs
  rw [stripText_eq_nil_iff] at habs
  have hall : ∀ c ∈ t, isSpaceChar c = true := by
    intro c hc
    refine habs c ?_
    cases ctx with
    | nil => simpa [joinSpace] using hc
    | cons u r =>
      simp only [joinSpace, List.mem_append]
      exact Or.inl hc
  have hnil : stripText t = [] := (stripText_eq_nil_iff t).mpr hall
  rw [ht] at hnil
  exact hne hnil

/-- Length of the finalized section list under the stream invariants. -/
theorem finalizeSec_length (summF : Text → Text) (hd0 : Text) (pg : Nat) (ctx : List Text)
    (hhd : hd0 ≠ [])
    (hctx : ∀ t ∈ ctx, stripText t = t ∧ t ≠ []) :
    (finalizeSec summF (some (hd0, pg)) ctx).length = if ctx = [] then 0 else 1 := by
  cases ctx with
  | nil => simp [finalizeSec]
  | cons t r =>
    have hjoin : stripText (joinSpace (t :: r)) ≠ [] := by
      obtain ⟨h1, h2⟩ := hctx t (by simp)
      exact strip_join_ne_nil t r h1 h2
    simp [finalizeSec, hhd, hjoin]

/-- The next line exists and is not heading-accepted. -/
def firstIsBody (hd : LineData → Bool) : List LineData → Bool
  | [] => false
  | l :: _ => !hd l

/-- The number of heading-accepted lines that are followed by at least one
non-heading line before the next heading-accepted line or stream end: a
heading qualifies exactly when its immediate successor exists and is not
heading-accepted. -/
def countSpec (hd : LineData → Bool) : List LineData → Nat
  | [] => 0
  | l :: ls => (if hd l && firstIsBody hd ls then 1 else 0) + countSpec hd ls

theorem assembleGo_length (summF : Text → Text) (hd : LineData → Bool) :
    ∀ (lines : List LineData) (cur : Option (Text × Nat)) (ctx : List Text),
      (∀ l ∈ lines, stripText l.text = l.text ∧ l.text ≠ []) →
      (∀ h p, cur = some (h, p) → h ≠ []) →
      (∀ t ∈ ctx, stripText t = t ∧ t ≠ []) →
      (assembleGo summF hd cur ctx lines).length =
        (if curTruthy cur && (!(ctx == []) || firstIsBody hd lines) then 1 else 0) +
          countSpec hd lines := by
  intro lines
  induction lines with
  | nil =>
    intro cur ctx hl hcur hctx
    cases cur with
    | none => simp [assembleGo, finalizeSec, curTruthy, countSpec, firstIsBody]
    | some hp =>
      obtain ⟨h0, p0⟩ := hp
      have hh := hcur h0 p0 rfl
      rw [show assembleGo summF hd (some (h0, p0)) ctx []
          = finalizeSec summF (some (h0, p0)) ctx from rfl]
      rw [finalizeSec_length summF h0 p0 ctx hh hctx]
      simp only [countSpec, firstIsBody, curTruthy, Nat.add_zero]
      cases ctx with
      | nil => simp
      | cons t r => simp [hh]
  | cons l ls ih =>
    intro cur ctx hl hcur hctx
    have hlt := hl l (by simp)
    by_cases hh : hd l = true
    · rw [show assembleGo summF hd cur ctx (l :: ls)
          = finalizeSec summF cur ctx ++ assembleGo summF hd (some (l.text, l.page)) [] ls by
        simp only [assembleGo]
        rw [if_pos hh]]
      rw [List.length_append]
      rw [ih (some (l.text, l.page)) [] (fun x hx => hl x (List.mem_cons_of_mem _ hx))
          (fun h p hp => by injection hp with h1; cases h1; exact hlt.2) (by simp)]
      have hcT : curTruthy (some (l.text, l.page)) = true := by
        simp [curTruthy, hlt.2]
      rw [hcT]
      simp only [countSpec, firstIsBody, hh, Bool.true_and, Bool.false_or]
      cases cur with
      | none => simp [finalizeSec, curTruthy]
      | some hp =>
        obtain ⟨h0, p0⟩ := hp
        have hh0 := hcur h0 p0 rfl
        rw [finalizeSec_length summF h0 p0 ctx hh0 hctx]
        have hcT0 : curTruthy (some (h0, p0)) = true := by
          simp [curTruthy, hh0]
        rw [hcT0]
        cases ctx with
        | nil => simp
        | cons t r => simp
    · have hhf : hd l = false := by
        cases hv : hd l
        · rfl
        · exact absurd hv hh
      by_cases hcT : curTruthy cur = true
      · rw [show assembleGo summF hd cur ctx (l :: ls)
            = assembleGo summF hd cur (ctx ++ [l.text]) ls by
          simp only [assembleGo]
          rw [if_neg (by simp [hhf]), if_pos hcT]]
        rw [ih cur (ctx ++ [l.text]) (fun x hx => hl x (List.mem_cons_of_mem _ hx)) hcur
            (fun t ht => by
              rcases List.mem_append.mp ht with h1 | h1
              · exact hctx t h1
              · simp only [List.mem_singleton] at h1
                subst h1
                exact hlt)]
        rw [hcT]
        simp only [countSpec, firstIsBody, hhf, Bool.false_and, if_false, Nat.zero_add]
        have hne : (ctx ++ [l.text] == []) = false := by
          simp
        rw [hne]
        simp
      · have hcF : curTruthy cur = false := by
          cases hv : curTruthy cur
          · rfl
          · exact absurd hv hcT
        rw [show assembleGo summF hd cur ctx (l :: ls)
            = assembleGo summF hd cur ctx ls by
          simp only [assembleGo]
          rw [if_neg (by simp [hhf]), if_neg (by simp [hcF])]]
        rw [ih cur ctx (fun x hx => hl x (List.mem_cons_of_mem _ hx)) hcur hctx]
        rw [hcF]
        simp [countSpec, firstIsBody, hhf]

/-- C3: for every input line stream of stripped non-empty line texts (the
`spans_data` invariant) and every heading classification, the Section
Assembler emits exactly as many sections as there are heading-accepted lines
followed by at least one non-heading line before the next heading-accepted
line or the end of the stream. -/
theorem assembler_emits_heads_with_body (summF : Text → Text) (hd : LineData → Bool)
    (lines : List LineData)
    (hl : ∀ l ∈ lines, stripText l.text = l.text ∧ l.text ≠ []) :
    (assembleSections summF hd lines).length = countSpec hd lines := by
  rw [assembleSections]
  rw [assembleGo_length summF hd lines none [] hl
      (fun h p hp => Option.noConfusion hp) (by simp)]
  simp [curTruthy]

/-- A five-line stream for the C3 witness: heading, body, heading, heading,
body (classified by page number 0). -/
def linesW : List LineData :=
  [ ⟨['H', 'd', 'r'], [], 0⟩, ⟨['b', 'o', 'd', 'y'], [], 1⟩,
    ⟨['H', '2'], [], 0⟩, ⟨['H', '3'], [], 0⟩, ⟨['x'], [], 1⟩ ]

theorem assembler_emits_heads_with_body_witness :
    (∀ l ∈ linesW, stripText l.text = l.text ∧ l.text ≠ []) ∧
      (assembleSections id (fun l => decide (l.page = 0)) linesW).length =
        countSpec (fun l => decide (l.page = 0)) linesW :=
  ⟨by decide, assembler_emits_heads_with_body id (fun l => decide (l.page = 0)) linesW
    (by decide)⟩
theorem topIndices_spec (imp : List ℚ) (maxS : Nat) (hlt : maxS < imp.length) :
    (sortNatAsc ((argsortAsc imp).reverse.take maxS)).length = maxS ∧
    List.Sorted (· < ·) (sortNatAsc ((argsortAsc imp).reverse.take maxS)) ∧
    (∀ i ∈ sortNatAsc ((argsortAsc imp).reverse.take maxS), i < imp.length) ∧
    (∀ i ∈ sortNatAsc ((argsortAsc imp).reverse.take maxS),
      ∀ j, j < imp.length → j ∉ sortNatAsc ((argsortAsc imp).reverse.take maxS) →
        imp.getD j 0 ≤ imp.getD i 0) := by
  have hpermA : (argsortAsc imp).Perm (List.range imp.length) :=
    List.mergeSort_perm _ _
  have hsortA : (argsortAsc imp).Pairwise
      (fun i j => (decide (imp.getD i 0 ≤ imp.getD j 0)) = true) := by
    apply List.sorted_mergeSort
    · intro a b c h1 h2
      simp only [decide_eq_true_eq] at h1 h2 ⊢
      exact le_trans h1 h2
    · intro a b
      simp only [Bool.or_eq_true, decide_eq_true_eq]
      exact le_total _ _
  have hndA : (argsortAsc imp).Nodup := hpermA.symm.nodup (List.nodup_range _)
  have hndR : (argsortAsc imp).reverse.Nodup := List.nodup_reverse.mpr hndA
  have hsortR : (argsortAsc imp).reverse.Pairwise
      (fun i j => (decide (imp.getD j 0 ≤ imp.getD i 0)) = true) := by
    rw [List.pairwise_reverse]
    exact hsortA
  have htd : (argsortAsc imp).reverse.take maxS ++ (argsortAsc imp).reverse.drop maxS
      = (argsortAsc imp).reverse := List.take_append_drop _ _
  have hcross : ∀ a ∈ (argsortAsc imp).reverse.take maxS,
      ∀ b ∈ (argsortAsc imp).reverse.drop maxS, imp.getD b 0 ≤ imp.getD a 0 := by
    intro a ha b hb
    have := ((List.pairwise_append).mp (htd ▸ hsortR)).2.2 a ha b hb
    simpa using this
  have hndT : ((argsortAsc imp).reverse.take maxS).Nodup :=
    hndR.sublist (List.take_sublist _ _)
  have hlenR : (argsortAsc imp).reverse.length = imp.length := by
    simp [argsortAsc]
  have hlenT : ((argsortAsc imp).reverse.take maxS).length = maxS := by
    rw [List.length_take, hlenR]
    exact Nat.min_eq_left (le_of_lt hlt)
  have hpermI : (sortNatAsc ((argsortAsc imp).reverse.take maxS)).Perm
      ((argsortAsc imp).reverse.take maxS) := List.mergeSort_perm _ _
  have hndI : (sortNatAsc ((argsortAsc imp).reverse.take maxS)).Nodup :=
    hpermI.symm.nodup hndT
  have hsortI : (sortNatAsc ((argsortAsc imp).reverse.take maxS)).Pairwise
      (fun a b => (decide (a ≤ b)) = true) := by
    apply List.sorted_mergeSort
    · intro a b c h1 h2
      simp only [decide_eq_true_eq] at h1 h2 ⊢
      exact le_trans h1 h2
    · intro a b
      simp only [Bool.or_eq_true, decide_eq_true_eq]
      exact le_total _ _
  have hmemT : ∀ i, i ∈ (argsortAsc imp).reverse.take maxS → i < imp.length := by
    intro i hi
    have h1 : i ∈ (argsortAsc imp).reverse := (List.take_sublist _ _).mem hi
    have h2 : i ∈ argsortAsc imp := List.mem_reverse.mp h1
    have h3 : i ∈ List.range imp.length := hpermA.mem_iff.mp h2
    exact List.mem_range.mp h3
  refine ⟨?_, ?_, ?_, ?_⟩
  · rw [hpermI.length_eq, hlenT]
  · have hle : (sortNatAsc ((argsortAsc imp).reverse.take maxS)).Sorted (· ≤ ·) := by
      refine hsortI.imp ?_
      intro a b hab
      exact of_decide_eq_true hab
    exact hle.lt_of_le hndI
  · intro i hi
    exact hmemT i (hpermI.mem_iff.mp hi)
  · intro i hi j hj hnj
    have hiT : i ∈ (argsortAsc imp).reverse.take maxS := hpermI.mem_iff.mp hi
    have hjR : j ∈ (argsortAsc imp).reverse := by
      rw [List.mem_reverse]
      refine hpermA.mem_iff.mpr ?_
      exact List.mem_range.mpr hj
    rw [← htd] at hjR
    rcases List.mem_append.mp hjR with hjT | hjD
    · exact absurd (hpermI.mem_iff.mpr hjT) hnj
    · exact hcross i hiT j hjD

/-- C6: with the sentence tokenizer and the per-sentence summed term weights
as the external collaborators, `summarize_text` returns the
whitespace-normalized input unchanged when the sentence count is at most
`maxS`; otherwise it returns `maxS` sentences whose weights are at least
those of every unselected sentence, joined in their original positional
order (strictly increasing indices), not in score order. -/
theorem summarize_text_selects_top_in_order (sentTok : Text → List Text)
    (impF : List Text → List ℚ) (text : Text) (maxS : Nat)
    (hlen : (impF (sentTok text)).length = (sentTok text).length) :
    ((sentTok text).length ≤ maxS ∧
      summarize_text sentTok impF text maxS = cleanText text) ∨
    (maxS < (sentTok text).length ∧ ∃ idxs : List Nat,
      idxs.length = maxS ∧ List.Sorted (· < ·) idxs ∧
      (∀ i ∈ idxs, i < (sentTok text).length) ∧
      (∀ i ∈ idxs, ∀ j, j < (sentTok text).length → j ∉ idxs →
        (impF (sentTok text)).getD j 0 ≤ (impF (sentTok text)).getD i 0) ∧
      summarize_text sentTok impF text maxS =
        cleanText (joinSpace (idxs.map (fun i => (sentTok text).getD i [])))) := by
  by_cases hn : (sentTok text).length ≤ maxS
  · left
    refine ⟨hn, ?_⟩
    simp only [summarize_text]
    rw [if_pos hn]
  · right
    have hlt : maxS < (sentTok text).length := Nat.lt_of_not_le hn
    refine ⟨hlt, ?_⟩
    have hlt2 : maxS < (impF (sentTok text)).length := by
      rw [hlen]
      exact hlt
    obtain ⟨hL, hS, hM, hC⟩ := topIndices_spec (impF (sentTok text)) maxS hlt2
    refine ⟨sortNatAsc (((argsortAsc (impF (sentTok text))).reverse).take maxS),
      hL, hS, ?_, ?_, ?_⟩
    · intro i hi
      have := hM i hi
      rwa [hlen] at this
    · intro i hi j hj hnj
      exact hC i hi j (by rwa [hlen]) hnj
    · simp only [summarize_text]
      rw [if_neg hn]

/-- Four fixed sentences, as a constant sentence tokenizer for the C6
witness. -/
def sentTokW : Text → List Text := fun _ => [['a'], ['b'], ['c'], ['d']]

/-- Fixed per-sentence weights for the C6 witness. -/
def impFW : List Text → List ℚ := fun _ => [1, 3, 2, 4]

theorem summarize_text_selects_top_in_order_witness :
    ((sentTokW []).length ≤ 3 ∧
      summarize_text sentTokW impFW [] 3 = cleanText []) ∨
    (3 < (sentTokW []).length ∧ ∃ idxs : List Nat,
      idxs.length = 3 ∧ List.Sorted (· < ·) idxs ∧
      (∀ i ∈ idxs, i < (sentTokW []).length) ∧
      (∀ i ∈ idxs, ∀ j, j < (sentTokW []).length → j ∉ idxs →
        (impFW (sentTokW [])).getD j 0 ≤ (impFW (sentTokW [])).getD i 0) ∧
      summarize_text sentTokW impFW [] 3 =
        cleanText (joinSpace (idxs.map (fun i => (sentTokW []).getD i [])))) :=
  summarize_text_selects_top_in_order sentTokW impFW [] 3 (by decide)
